import Mathlib

/-!
Verification development for a single-file Streamlit application (`app.py`)
that aggregates uploaded submission documents into a text buffer, resolves a
named agent configuration, builds a prompt for a generation backend, and
post-processes / exports the result.

The Python code is shallowly embedded below: pure fragments become Lean
functions on `List Char` / `String`, uncaught Python exceptions become
`Option`/`Except` failures, and module-level control flow becomes explicit
state records.  All definitions are executable.
-/

/-! ## Small Python-semantics utilities -/

/-- Model of Python `str.strip()` (drop leading and trailing whitespace). -/
def pyStrip (cs : List Char) : List Char :=
  ((cs.dropWhile Char.isWhitespace).reverse.dropWhile Char.isWhitespace).reverse

/-- Accumulator-passing worker for `splitOnChar`. -/
def splitOnCharAux (sep : Char) : List Char → List Char → List (List Char)
  | [], acc => [acc.reverse]
  | c :: t, acc =>
    if c = sep then acc.reverse :: splitOnCharAux sep t []
    else splitOnCharAux sep t (c :: acc)

/-- Model of Python `str.split(sep)` for a one-character separator. -/
def splitOnChar (sep : Char) (cs : List Char) : List (List Char) :=
  splitOnCharAux sep cs []

/-- Model of Python `str.lower()` (ASCII case folding suffices here). -/
def pyLower (cs : List Char) : List Char :=
  cs.map Char.toLower

/-- Value of a non-empty all-digit character list, `none` otherwise. -/
def digitsVal? (cs : List Char) : Option Nat :=
  if cs.isEmpty then none
  else if cs.all Char.isDigit then
    some (cs.foldl (fun a c => a * 10 + (c.toNat - 48)) 0)
  else none

/-- Model of Python `int(part)`: optional sign and decimal digits, after
stripping whitespace; `none` models an uncaught `ValueError`. -/
def pyInt? (t : List Char) : Option Int :=
  match pyStrip t with
  | '+' :: rest => (digitsVal? rest).map (fun n => (n : Int))
  | '-' :: rest => (digitsVal? rest).map (fun n => -(n : Int))
  | cs => (digitsVal? cs).map (fun n => (n : Int))

/-- Model of Python `range(a, b)` over integers, as the list `[a, b)`. -/
def intRange (a b : Int) : List Int :=
  (List.range (b - a).toNat).map (fun (k : Nat) => a + (k : Int))

/-- Decimal digits of a natural number (fuel-based so that it reduces in the
kernel); call with fuel `n + 1`. -/
def natDigitsAux : Nat → Nat → List Char
  | 0, _ => []
  | fuel + 1, n =>
    if n < 10 then [Char.ofNat (48 + n)]
    else natDigitsAux fuel (n / 10) ++ [Char.ofNat (48 + n % 10)]

/-- Decimal rendering of a natural number, as in a Python f-string. -/
def natStr (n : Nat) : String :=
  String.mk (natDigitsAux (n + 1) n)

/-- Decimal rendering of an integer, as in a Python f-string. -/
def intStr (i : Int) : String :=
  if i < 0 then "-" ++ natStr (-i).toNat else natStr i.toNat

/-! ## Page-selection parser (`app.py` lines 123-136)

The Python loop builds `selected_pages` from the comma-separated expression.
A token containing `-` is split and both halves passed to `int`; the segment
`range(start-1, min(end, total_pages))` is appended.  Otherwise the token is
passed to `int`, decremented, and appended only when `0 <= page_num < total`.
An `int` failure (or a `-`-token that does not split into exactly two halves)
raises an uncaught `ValueError`, modelled as `none`. -/

def parseTokens (parts : List (List Char)) (total_pages : Nat) : Option (List Int) :=
  match parts with
  | [] => some []
  | p :: rest =>
    let part := pyStrip p
    if part.contains '-' then
      match splitOnChar '-' part with
      | [a, b] =>
        match pyInt? a, pyInt? b with
        | some s, some e =>
          (parseTokens rest total_pages).map
            (fun l => intRange (s - 1) (min e (total_pages : Int)) ++ l)
        | _, _ => none
      | _ => none
    else
      match pyInt? part with
      | some v =>
        (parseTokens rest total_pages).map
          (fun l => if 0 ≤ v - 1 ∧ v - 1 < (total_pages : Int) then (v - 1) :: l else l)
      | none => none

/-- The page-selection parser: `page_range.lower() == "all"` selects every
page, otherwise the comma-separated tokens are processed in order. -/
def selected_pages (page_range : List Char) (total_pages : Nat) : Option (List Int) :=
  if pyLower page_range = "all".toList then
    some ((List.range total_pages).map (fun (k : Nat) => (k : Int)))
  else
    parseTokens (splitOnChar ',' page_range) total_pages

/-- True when every `A-B` token of the already-split expression has `A ≥ 1`
(the condition under which the code's `range(start-1, ...)` stays
non-negative). -/
def rangeStartsOk (parts : List (List Char)) : Bool :=
  parts.all (fun p =>
    let part := pyStrip p
    if part.contains '-' then
      match splitOnChar '-' part with
      | [a, _] =>
        match pyInt? a with
        | some s => decide (1 ≤ s)
        | none => true
      | _ => true
    else true)

/-- `rangeStartsOk` applied to the comma-split of a whole expression. -/
def pageRangeStartsOk (e : List Char) : Bool :=
  rangeStartsOk (splitOnChar ',' e)

/-- True when a token is numerically well formed for the parser: either a
single integer numeral, or exactly two integer numerals joined by `-`. -/
def tokenOk (p : List Char) : Bool :=
  let part := pyStrip p
  if part.contains '-' then
    match splitOnChar '-' part with
    | [a, b] => (pyInt? a).isSome && (pyInt? b).isSome
    | _ => false
  else (pyInt? part).isSome

/-! ## PDF page extraction (`app.py` lines 140-143)

Each selected page contributes `f"\n--- Page {page_num + 1} ---\n"` followed
by the page's extracted text and a newline.  The uploaded file's name is not
referenced in the loop body.  `reader.pages[page_num]` uses Python list
indexing (negative indices wrap; a genuinely out-of-range index raises). -/

/-- Python list indexing semantics for `reader.pages[i]`. -/
def pyIndex (pages : List String) (i : Int) : Option String :=
  if 0 ≤ i ∧ i < (pages.length : Int) then some (pages.getD i.toNat "")
  else if -(pages.length : Int) ≤ i ∧ i < 0 then
    some (pages.getD (pages.length - (-i).toNat) "")
  else none

/-- The header written before a page's text: `f"\n--- Page {page_num + 1} ---\n"`. -/
def page_header (page_num : Int) : String :=
  "\n--- Page " ++ intStr (page_num + 1) ++ " ---\n"

/-- Text contributed to `summary_text` by the extraction loop over
`selected_pages` for one PDF document.  The document name parameter mirrors
the information available at the call site; the loop body never uses it. -/
def pdf_contribution (docName : String) (pages : List String) (sel : List Int) :
    Option String :=
  match sel with
  | [] => some ""
  | k :: rest =>
    match pyIndex pages k with
    | none => none
    | some txt =>
      (pdf_contribution docName pages rest).map
        (fun acc => page_header k ++ txt ++ "\n" ++ acc)

/-! ## Run gating (`app.py` lines 71-78, 165, 218)

The agent section renders only under `if summary_text:`; the backend call
happens under `if st.button("🚀 Run Agent") and user_prompt:`.  The API key
is read at lines 71-78: an empty key only triggers `st.warning`; nothing in
the run path checks it again. -/

structure RunState where
  summary_text : String
  user_prompt : String
  runClicked : Bool
  apiKey : String

/-- Whether the control flow reaches `model.generate_content(full_prompt)`. -/
def backendInvoked (s : RunState) : Bool :=
  (s.summary_text != "") && s.runClicked && (s.user_prompt != "")

/-- Whether `st.warning("Please enter your Gemini API Key to continue.")`
is displayed (line 78). -/
def credentialWarning (s : RunState) : Bool :=
  s.apiKey == ""

/-! ## Prompt assembly (`app.py` lines 233-241) -/

/-- The f-string `full_prompt` exactly as built in the source. -/
def full_prompt (selected_agent summary_text user_prompt : String) : String :=
  "Agent: " ++ selected_agent ++ "\n\nSubmission Content:\n" ++ summary_text ++
    "\n\nTask:\n" ++ user_prompt ++ "\n\nPlease provide a detailed analysis."

/-- Spec section (a): an identifying header naming the selected agent. -/
def prompt_agent_header (agent : String) : String :=
  "Agent: " ++ agent

/-- Spec section (b): the labeled submission-content section, holding the
aggregated submission verbatim. -/
def prompt_submission_section (s : String) : String :=
  "\n\nSubmission Content:\n" ++ s

/-- Spec section (c): the labeled task section, holding the instruction. -/
def prompt_task_section (u : String) : String :=
  "\n\nTask:\n" ++ u

/-- Spec section (d): the closing directive. -/
def prompt_closing_directive : String :=
  "\n\nPlease provide a detailed analysis."

/-! ## Agent resolution (`app.py` lines 171-184, 209-215) -/

structure AgentCfg where
  description : Option String
  default_prompt : String
  temperature : ℚ
  max_tokens : Nat
deriving DecidableEq

/-- The hard-coded fallback configuration used when `agents` is empty
(lines 180-184; the dict literal has no `description` key). -/
def default_agent_config : AgentCfg :=
  { description := none
    default_prompt := "Analyze the submission and extract key information."
    temperature := 3 / 10
    max_tokens := 4096 }

/-- Agent resolution: with a non-empty mapping the select box picks one of
its entries (modelled by an index, clamped); with an empty mapping the code
falls back to the built-in "Default Agent". -/
def resolveAgent (agents : List (String × AgentCfg)) (pick : Nat) :
    String × AgentCfg :=
  match agents with
  | [] => ("Default Agent", default_agent_config)
  | x :: xs => (x :: xs).getD (min pick xs.length) x

/-! ## Configuration loading (`app.py` lines 29-68, 84-85, 171-179)

`load_agents_config` returns `yaml.safe_load(f)` unvalidated when the file
exists and parses; only an exception raised while loading is caught (it
yields `st.error(...)` and `{'agents': {}}`).  Afterwards the module runs
`agents_config.get('agents', {})` (an `AttributeError` when the parsed
document is not a mapping) and, under `if agents:`, `list(agents.keys())`
(an `AttributeError` when a truthy `agents` is not a mapping). -/

/-- Parsed YAML documents, as `yaml.safe_load` can return them. -/
inductive Yaml where
  | null
  | bool (b : Bool)
  | num (q : ℚ)
  | str (s : String)
  | arr (xs : List Yaml)
  | map (kvs : List (String × Yaml))

/-- Uncaught Python exceptions reachable from the config path. -/
inductive PyErr where
  | attributeError
deriving DecidableEq

/-- The hard-coded default configuration dict (lines 38-65). -/
def defaultConfigYaml : Yaml :=
  Yaml.map [("agents", Yaml.map
    [ ("Evidence Extractor", Yaml.map
        [ ("description", Yaml.str "Extracts key evidence from FDA submissions")
        , ("default_prompt", Yaml.str "Extract all clinical evidence, safety data, and comparative information from the submission.")
        , ("temperature", Yaml.num (3 / 10))
        , ("max_tokens", Yaml.num 4096) ])
    , ("Compliance Checker", Yaml.map
        [ ("description", Yaml.str "Checks FDA regulatory compliance")
        , ("default_prompt", Yaml.str "Review the submission for FDA 510(k) compliance requirements and identify any gaps.")
        , ("temperature", Yaml.num (2 / 10))
        , ("max_tokens", Yaml.num 4096) ])
    , ("Comparator Analyzer", Yaml.map
        [ ("description", Yaml.str "Compares device with predicate devices")
        , ("default_prompt", Yaml.str "Compare the subject device with predicate devices, identifying similarities and differences.")
        , ("temperature", Yaml.num (4 / 10))
        , ("max_tokens", Yaml.num 4096) ])
    , ("Risk Assessor", Yaml.map
        [ ("description", Yaml.str "Assesses risks and safety concerns")
        , ("default_prompt", Yaml.str "Identify and assess potential risks, safety concerns, and mitigation strategies.")
        , ("temperature", Yaml.num (3 / 10))
        , ("max_tokens", Yaml.num 4096) ])
    ])]

/-- The configuration source: `none` when `agents.yaml` does not exist,
`some (.error e)` when opening/parsing raises, `some (.ok y)` when
`yaml.safe_load` returns document `y`. -/
def load_agents_config (source : Option (Except String Yaml)) :
    Yaml × Option String :=
  match source with
  | none => (defaultConfigYaml, none)
  | some (.ok y) => (y, none)
  | some (.error e) =>
    (Yaml.map [("agents", Yaml.map [])], some ("Error loading agents.yaml: " ++ e))

/-- Python truthiness of a parsed YAML value. -/
def pyTruthy : Yaml → Bool
  | .null => false
  | .bool b => b
  | .num q => q != 0
  | .str s => s != ""
  | .arr xs => !xs.isEmpty
  | .map kvs => !kvs.isEmpty

/-- `agents_config.get('agents', {})` (line 85): `.get` exists only on
dicts; on any other value an `AttributeError` is raised. -/
def pyGetAgents (cfg : Yaml) : Except PyErr Yaml :=
  match cfg with
  | .map kvs => .ok ((((kvs.find? (fun kv => kv.1 == "agents"))).map (fun kv => kv.2)).getD (Yaml.map []))
  | _ => .error .attributeError

/-- Lines 171-179: under `if agents:` the code lists `agents.keys()` for the
select box; otherwise it warns and uses the built-in "Default Agent". -/
def agentNames (agents : Yaml) : Except PyErr (List String) :=
  if pyTruthy agents then
    match agents with
    | .map kvs => .ok (kvs.map (fun kv => kv.1))
    | _ => .error .attributeError
  else .ok ["Default Agent"]

/-- The whole configuration path: load, read the `agents` entry, list the
selectable agent names. -/
def agentsPipeline (source : Option (Except String Yaml)) :
    Except PyErr (List String) :=
  match pyGetAgents (load_agents_config source).1 with
  | .error e => .error e
  | .ok ag => agentNames ag

/-! ## Plain-text documents and batch aggregation (`app.py` lines 104-150)

For a TXT/Markdown upload the code runs
`content = uploaded_file.read().decode("utf-8")` with no handler; a byte
sequence that is not valid UTF-8 raises `UnicodeDecodeError` and aborts the
whole script run.  Documents are otherwise concatenated in upload order with
a `\n--- {name} ---\n` header and trailing newline. -/

/-- Whether a byte is a UTF-8 continuation byte. -/
def utf8Cont (b : Nat) : Bool :=
  128 ≤ b && b ≤ 191

/-- Strict UTF-8 decoding of a byte list to characters (rejecting overlong
forms, surrogates and values above U+10FFFF, as Python's
`bytes.decode("utf-8")` does); `none` models `UnicodeDecodeError`. -/
def utf8Decode? : List Nat → Option (List Char)
  | [] => some []
  | b :: rest =>
    if b ≤ 127 then
      (utf8Decode? rest).map (fun cs => Char.ofNat b :: cs)
    else if 194 ≤ b && b ≤ 223 then
      match rest with
      | c1 :: rest2 =>
        if utf8Cont c1 then
          (utf8Decode? rest2).map (fun cs => Char.ofNat ((b - 192) * 64 + (c1 - 128)) :: cs)
        else none
      | _ => none
    else if 224 ≤ b && b ≤ 239 then
      match rest with
      | c1 :: c2 :: rest3 =>
        let lo1 : Nat := if b = 224 then 160 else 128
        let hi1 : Nat := if b = 237 then 159 else 191
        if (lo1 ≤ c1 && c1 ≤ hi1) && utf8Cont c2 then
          (utf8Decode? rest3).map
            (fun cs => Char.ofNat ((b - 224) * 4096 + (c1 - 128) * 64 + (c2 - 128)) :: cs)
        else none
      | _ => none
    else if 240 ≤ b && b ≤ 244 then
      match rest with
      | c1 :: c2 :: c3 :: rest4 =>
        let lo1 : Nat := if b = 240 then 144 else 128
        let hi1 : Nat := if b = 244 then 143 else 191
        if (lo1 ≤ c1 && c1 ≤ hi1) && (utf8Cont c2 && utf8Cont c3) then
          (utf8Decode? rest4).map
            (fun cs => Char.ofNat ((b - 240) * 262144 + (c1 - 128) * 4096 + (c2 - 128) * 64 + (c3 - 128)) :: cs)
        else none
      | _ => none
    else none

/-- Aggregation of a batch of plain-text uploads, in upload order.  A decode
failure is an uncaught exception: the whole aggregation aborts and reports
the failing document (`Except.error name`). -/
def processBatch : List (String × List Nat) → Except String String
  | [] => .ok ""
  | (name, bytes) :: rest =>
    match utf8Decode? bytes with
    | none => .error name
    | some cs =>
      match processBatch rest with
      | .error e => .error e
      | .ok acc => .ok ("\n--- " ++ name ++ " ---\n" ++ String.mk cs ++ "\n" ++ acc)

/-! ## Result highlighting (`app.py` lines 247-251)

The backend result is post-processed by four sequential `str.replace` calls.
`replaceFuel` models Python's `str.replace`: scan left to right; at a match
emit the replacement and resume after the matched occurrence (the emitted
replacement text is not rescanned); otherwise emit one character. -/

def replaceFuel (p r : List Char) : Nat → List Char → List Char
  | _, [] => []
  | 0, s => s
  | fuel + 1, c :: t =>
    if (!p.isEmpty) && p.isPrefixOf (c :: t) then
      r ++ replaceFuel p r fuel ((c :: t).drop p.length)
    else
      c :: replaceFuel p r fuel t

/-- Python `s.replace(p, r)` (for the non-empty patterns used here). -/
def replaceAll (p r s : List Char) : List Char :=
  replaceFuel p r s.length s

def pYES : List Char := "[YES]".toList
def rYES : List Char := "<span class=\x27highlight-positive\x27>✔ YES</span>".toList
def pNO : List Char := "[NO]".toList
def rNO : List Char := "<span class=\x27highlight-negative\x27>✘ NO</span>".toList
def pPASS : List Char := "PASS".toList
def rPASS : List Char := "<span class=\x27highlight-positive\x27>✔ PASS</span>".toList
def pFAIL : List Char := "FAIL".toList
def rFAIL : List Char := "<span class=\x27highlight-negative\x27>✘ FAIL</span>".toList

/-- The four replacement pairs, in the order the source applies them. -/
def hlPairs : List (List Char × List Char) :=
  [(pYES, rYES), (pNO, rNO), (pPASS, rPASS), (pFAIL, rFAIL)]

/-- Apply one replacement pair. -/
def applyRepl (s : List Char) (pr : List Char × List Char) : List Char :=
  replaceAll pr.1 pr.2 s

/-- The highlighting transform exactly as in the source: the four
`str.replace` calls applied in order. -/
def pythonHighlight (s : List Char) : List Char :=
  hlPairs.foldl applyRepl s

/-- Single-pass scan that, at every position, replaces whichever of the four
tokens matches and otherwise emits the input character unchanged.  This is
the canonical form used to state that the transform touches nothing outside
token occurrences. -/
def scanFuel : Nat → List Char → List Char
  | _, [] => []
  | 0, s => s
  | fuel + 1, c :: t =>
    if pYES.isPrefixOf (c :: t) then rYES ++ scanFuel fuel ((c :: t).drop pYES.length)
    else if pNO.isPrefixOf (c :: t) then rNO ++ scanFuel fuel ((c :: t).drop pNO.length)
    else if pPASS.isPrefixOf (c :: t) then rPASS ++ scanFuel fuel ((c :: t).drop pPASS.length)
    else if pFAIL.isPrefixOf (c :: t) then rFAIL ++ scanFuel fuel ((c :: t).drop pFAIL.length)
    else c :: scanFuel fuel t

/-- Entry point of the canonical scan. -/
def highlightScan (s : List Char) : List Char :=
  scanFuel s.length s

/-- String-level wrapper for the highlighting chain. -/
def strHighlight (s : String) : String :=
  String.mk (pythonHighlight s.data)

/-! ## Exports (`app.py` lines 258-287)

The first download button receives `result` — the *highlighted* string.  The
second receives `formatted_report`, an f-string embedding the agent name,
`st.session_state.get('timestamp', 'N/A')`, the slider values, the prompt and
the raw `response.text`.  Both are built from values already in scope; the
backend is not called again. -/

/-- Every write the program ever makes to `st.session_state` (there are
none: `st.session_state` is only read, at line 270). -/
def session_state_writes : List (String × String) := []

/-- `st.session_state.get(key, default)`. -/
def sessionGet (key default : String) : String :=
  (((session_state_writes.find? (fun kv => kv.1 == key))).map (fun kv => kv.2)).getD default

/-- The value interpolated as `## Date:` in the report. -/
def report_date : String :=
  sessionGet "timestamp" "N/A"

/-- The f-string `formatted_report` (lines 268-281).  The temperature and
max-token values are interpolated through their rendered forms. -/
def formatted_report (selected_agent temperatureR maxTokensR user_prompt rawText : String) :
    String :=
  "# FDA Agent Analysis Report\n## Agent: " ++ selected_agent ++ "\n## Date: " ++
    report_date ++ "\n\n### Configuration\n- Temperature: " ++ temperatureR ++
    "\n- Max Tokens: " ++ maxTokensR ++ "\n\n### Prompt\n" ++ user_prompt ++
    "\n\n### Analysis Results\n" ++ rawText ++ "\n"

/-- The three strings produced after a successful generation: the rendered
result, the standalone download, and the composed report. -/
structure RunArtifacts where
  displayed : String
  exportStandalone : String
  exportReport : String
deriving DecidableEq

/-- Post-processing and export assembly for one successful run (lines
246-287), as a pure function of the response text and held state. -/
def run_artifacts (selected_agent temperatureR maxTokensR user_prompt responseText : String) :
    RunArtifacts :=
  let result := strHighlight responseText
  { displayed := result
    exportStandalone := result
    exportReport :=
      formatted_report selected_agent temperatureR maxTokensR user_prompt responseText }

/-! ## Theorems -/

theorem mem_intRange {a b i : Int} (h : i ∈ intRange a b) : a ≤ i ∧ i < b := by
  simp only [intRange] at h
  obtain ⟨k, hk, rfl⟩ := List.mem_map.mp h
  have hk' := List.mem_range.mp hk
  omega

theorem parseTokens_cons_range {p x y : List Char} {a b : Int}
    (rest : List (List Char)) (n : Nat)
    (hc : '-' ∈ pyStrip p)
    (hsp : splitOnChar '-' (pyStrip p) = [x, y])
    (hx : pyInt? x = some a) (hy : pyInt? y = some b) :
    parseTokens (p :: rest) n =
      (parseTokens rest n).map
        (fun l => intRange (a - 1) (min b (n : Int)) ++ l) := by
  simp [parseTokens, hc, hsp, hx, hy]

theorem parseTokens_cons_single {p : List Char} {v : Int}
    (rest : List (List Char)) (n : Nat)
    (hc : '-' ∉ pyStrip p)
    (hx : pyInt? (pyStrip p) = some v) :
    parseTokens (p :: rest) n =
      (parseTokens rest n).map
        (fun l => if 0 ≤ v - 1 ∧ v - 1 < (n : Int) then (v - 1) :: l else l) := by
  simp [parseTokens, hc, hx]

theorem rangeStartsOk_cons {p : List Char} {rest : List (List Char)}
    (h : rangeStartsOk (p :: rest) = true) :
    rangeStartsOk rest = true ∧
      (∀ x y a, '-' ∈ pyStrip p →
        splitOnChar '-' (pyStrip p) = [x, y] → pyInt? x = some a → 1 ≤ a) := by
  simp only [rangeStartsOk, List.all_cons, Bool.and_eq_true] at h
  refine ⟨by simpa [rangeStartsOk] using h.2, ?_⟩
  intro x y a hc hsp hx
  have h1 := h.1
  simp only [hsp, hx] at h1
  simp [hc] at h1
  exact h1

theorem parseTokens_mem_bounds :
    ∀ (parts : List (List Char)) (n : Nat) (l : List Int),
      parseTokens parts n = some l →
      ∀ i ∈ l, i < (n : Int) ∧ (rangeStartsOk parts = true → 0 ≤ i) := by
  intro parts
  induction parts with
  | nil =>
    intro n l h i hi
    simp only [parseTokens, Option.some.injEq] at h
    subst h
    simp at hi
  | cons p rest IH =>
    intro n l h i hi
    by_cases hc : '-' ∈ pyStrip p
    · rcases hsp : splitOnChar '-' (pyStrip p) with _ | ⟨x, _ | ⟨y, _ | ⟨z, zs⟩⟩⟩
      · exfalso; simp [parseTokens, hc, hsp] at h
      · exfalso; simp [parseTokens, hc, hsp] at h
      · rcases hx : pyInt? x with _ | a
        · exfalso; simp [parseTokens, hc, hsp, hx] at h
        rcases hy : pyInt? y with _ | b
        · exfalso; simp [parseTokens, hc, hsp, hx, hy] at h
        rw [parseTokens_cons_range rest n hc hsp hx hy] at h
        rcases hrest : parseTokens rest n with _ | l' <;> rw [hrest] at h
        · exact absurd h (by simp)
        have hl : intRange (a - 1) (min b (n : Int)) ++ l' = l := by simpa using h
        subst hl
        rcases List.mem_append.mp hi with hseg | htail
        · have hb := mem_intRange hseg
          refine ⟨lt_of_lt_of_le hb.2 (min_le_right _ _), fun hok => ?_⟩
          have h1 := (rangeStartsOk_cons hok).2 x y a hc hsp hx
          omega
        · have hrec := IH n l' hrest i htail
          exact ⟨hrec.1, fun hok => hrec.2 (rangeStartsOk_cons hok).1⟩
      · exfalso; simp [parseTokens, hc, hsp] at h
    · rcases hx : pyInt? (pyStrip p) with _ | v
      · exfalso; simp [parseTokens, hc, hx] at h
      rw [parseTokens_cons_single rest n hc hx] at h
      rcases hrest : parseTokens rest n with _ | l' <;> rw [hrest] at h
      · exact absurd h (by simp)
      have hl : (if 0 ≤ v - 1 ∧ v - 1 < (n : Int) then (v - 1) :: l' else l') = l := by
        simpa using h
      subst hl
      by_cases hin : 0 ≤ v - 1 ∧ v - 1 < (n : Int)
      · rw [if_pos hin] at hi
        rcases List.mem_cons.mp hi with rfl | htail
        · exact ⟨hin.2, fun _ => hin.1⟩
        · have hrec := IH n l' hrest i htail
          exact ⟨hrec.1, fun hok => hrec.2 (rangeStartsOk_cons hok).1⟩
      · rw [if_neg hin] at hi
        have hrec := IH n l' hrest i hi
        exact ⟨hrec.1, fun hok => hrec.2 (rangeStartsOk_cons hok).1⟩

/-- C1 (amended): for every expression that parses successfully, every
selected index is strictly below the page count; and whenever every range
token `A-B` of the expression has `A ≥ 1`, every selected index is also
nonnegative.  (The original claim — a subset of `[0, n)`, extracted in
strictly ascending order with no duplicates regardless of token order — is
refuted at `selected_pages_order_cex`: the parser preserves token order and
repetitions, and a range starting at 0 emits index `-1`.) -/
theorem selected_pages_bounds :
    ∀ (e : List Char) (n : Nat) (l : List Int), selected_pages e n = some l →
      (∀ i ∈ l, i < (n : Int)) ∧
      (pageRangeStartsOk e = true → ∀ i ∈ l, 0 ≤ i) := by
  intro e n l h
  unfold selected_pages at h
  by_cases hall : pyLower e = "all".toList
  · rw [if_pos hall, Option.some.injEq] at h
    subst h
    constructor
    · intro i hi
      obtain ⟨k, hk, rfl⟩ := List.mem_map.mp hi
      have hk' := List.mem_range.mp hk
      omega
    · intro _ i hi
      obtain ⟨k, _, rfl⟩ := List.mem_map.mp hi
      omega
  · rw [if_neg hall] at h
    have hb := parseTokens_mem_bounds _ n l h
    exact ⟨fun i hi => (hb i hi).1, fun hok i hi => (hb i hi).2 hok⟩

/-- Witness for `selected_pages_bounds`: the spec's own example `"2,4-6"`
with 10 pages, which parses to `[1, 3, 4, 5]`. -/
theorem selected_pages_bounds_witness :
    (∀ i ∈ ([1, 3, 4, 5] : List Int), i < (10 : Int)) ∧
    (pageRangeStartsOk "2,4-6".toList = true →
      ∀ i ∈ ([1, 3, 4, 5] : List Int), 0 ≤ i) :=
  selected_pages_bounds "2,4-6".toList 10 [1, 3, 4, 5] (by decide)

/-- C1 counterexample: `"0-2,3,1"` with 10 pages parses to
`[-1, 0, 1, 2, 0]`, which escapes `[0, n)`, is not strictly ascending, and
repeats index 0 — refuting the claimed subset/ordering/dedup property. -/
theorem selected_pages_order_cex :
    selected_pages "0-2,3,1".toList 10 = some [-1, 0, 1, 2, 0] ∧
    ¬((∀ i ∈ ([-1, 0, 1, 2, 0] : List Int), 0 ≤ i ∧ i < 10) ∧
      List.Chain' (· < ·) ([-1, 0, 1, 2, 0] : List Int) ∧
      ([-1, 0, 1, 2, 0] : List Int).Nodup) :=
  ⟨by decide, by decide⟩

theorem parseTokens_isSome :
    ∀ (parts : List (List Char)) (n : Nat),
      (∀ p ∈ parts, tokenOk p = true) → (parseTokens parts n).isSome = true := by
  intro parts
  induction parts with
  | nil => intro n _; simp [parseTokens]
  | cons p rest IH =>
    intro n hall
    have hp : tokenOk p = true := hall p (List.mem_cons_self p rest)
    have hrest : (parseTokens rest n).isSome = true :=
      IH n (fun q hq => hall q (List.mem_cons_of_mem p hq))
    obtain ⟨l', hl'⟩ := Option.isSome_iff_exists.mp hrest
    by_cases hc : '-' ∈ pyStrip p
    · rcases hsp : splitOnChar '-' (pyStrip p) with _ | ⟨x, _ | ⟨y, _ | ⟨z, zs⟩⟩⟩
      · exfalso; simp [tokenOk, hc, hsp] at hp
      · exfalso; simp [tokenOk, hc, hsp] at hp
      · have hxy : (pyInt? x).isSome = true ∧ (pyInt? y).isSome = true := by
          have h2 := hp
          simp [tokenOk, hc, hsp] at h2
          exact h2
        obtain ⟨a, hx⟩ := Option.isSome_iff_exists.mp hxy.1
        obtain ⟨b, hy⟩ := Option.isSome_iff_exists.mp hxy.2
        rw [parseTokens_cons_range rest n hc hsp hx hy, hl']
        simp
      · exfalso; simp [tokenOk, hc, hsp] at hp
    · have hv : (pyInt? (pyStrip p)).isSome = true := by
        have := hp
        simp [tokenOk, hc] at this
        simpa [Option.isSome_iff_exists] using this
      obtain ⟨v, hx⟩ := Option.isSome_iff_exists.mp hv
      rw [parseTokens_cons_single rest n hc hx, hl']
      simp

/-- C2 (amended): numerically well-formed tokens never abort the parse — an
out-of-range single page number is silently dropped and a range token `A-B`
is clipped at the top to `total_pages` (not at the bottom: the segment runs
from `A-1` even when that is negative), with the remaining tokens still
processed; `"8-20"` with 10 pages yields exactly `[7, 8, 9]`.  (The original
claim — that *any* invalid token is dropped or clipped and parsing never
aborts — is refuted at `selected_pages_abort_cex`: a non-numeric token
raises an uncaught `ValueError`, and a range is not clipped to `[1, n]`.) -/
theorem selected_pages_clip_drop :
    (∀ (n : Nat) (parts : List (List Char)), (∀ p ∈ parts, tokenOk p = true) →
      (parseTokens parts n).isSome = true) ∧
    (∀ (n : Nat) (p : List Char) (rest : List (List Char)) (v : Int),
      '-' ∉ pyStrip p → pyInt? (pyStrip p) = some v →
      ¬(0 ≤ v - 1 ∧ v - 1 < (n : Int)) →
      parseTokens (p :: rest) n = parseTokens rest n) ∧
    (∀ (n : Nat) (p x y : List Char) (rest : List (List Char)) (a b : Int)
        (l : List Int),
      '-' ∈ pyStrip p → splitOnChar '-' (pyStrip p) = [x, y] →
      pyInt? x = some a → pyInt? y = some b → parseTokens rest n = some l →
      parseTokens (p :: rest) n =
        some (intRange (a - 1) (min b (n : Int)) ++ l)) ∧
    selected_pages "8-20".toList 10 = some [7, 8, 9] := by
  refine ⟨fun n parts h => parseTokens_isSome parts n h, ?_, ?_, by decide⟩
  · intro n p rest v hc hx hout
    rw [parseTokens_cons_single rest n hc hx]
    rcases hrest : parseTokens rest n with _ | l'
    · rfl
    · exact congrArg some (if_neg hout)
  · intro n p x y rest a b l hc hsp hx hy hrest
    rw [parseTokens_cons_range rest n hc hsp hx hy, hrest]
    rfl

/-- Witness for `selected_pages_clip_drop`: the token list
`["8-20", " 15"]` (an in-range range plus an out-of-range single) is fully
numeric, so parsing succeeds with 10 total pages. -/
theorem selected_pages_clip_drop_witness :
    (parseTokens ["8-20".toList, " 15".toList] 10).isSome = true :=
  selected_pages_clip_drop.1 10 ["8-20".toList, " 15".toList] (by decide)

/-- C2 counterexample: the expression `"x,2"` aborts the whole parse (the
valid token `2` is never processed), and `"0-3"` with 10 pages yields
`[-1, 0, 1, 2]` rather than a set clipped to the page interval `[1, 10]`. -/
theorem selected_pages_abort_cex :
    selected_pages "x,2".toList 10 = none ∧
    (selected_pages "x,2".toList 10).isSome = false ∧
    selected_pages "0-3".toList 10 = some [-1, 0, 1, 2] :=
  ⟨by decide, by decide, by decide⟩

/-- C3 counterexample: with a non-empty submission, a non-empty instruction,
and the run button clicked, but no API key at all, the control flow still
reaches the backend call — refuting "a backend credential is present" as a
precondition and "the generation backend is never invoked" when the
credential is absent. -/
theorem run_without_credential_cex :
    credentialWarning ⟨"doc", "analyze", true, ""⟩ = true ∧
    backendInvoked ⟨"doc", "analyze", true, ""⟩ = true := by
  constructor <;> rfl

/-- C3 (amended): the backend is invoked exactly when the aggregated
submission is non-empty, the run button was clicked, and the instruction
string is non-empty; the API key plays no part in this gate.  The key-entry
warning is shown exactly when the key is absent, and an empty submission by
itself blocks the run (the agent section, including the run button, is never
rendered) but triggers no notice. -/
theorem run_gate_characterization :
    ∀ s : RunState,
      (backendInvoked s = true ↔
        s.summary_text ≠ "" ∧ s.runClicked = true ∧ s.user_prompt ≠ "") ∧
      (credentialWarning s = true ↔ s.apiKey = "") := by
  intro s
  constructor
  · simp [backendInvoked, Bool.and_eq_true, bne_iff_ne, and_assoc]
  · simp [credentialWarning]

/-- C4 counterexample: a configuration whose `agents` entry is a non-empty
list (and likewise a null YAML document) makes the agent-name listing crash
with `AttributeError` instead of being replaced by an empty mapping with a
diagnostic. -/
theorem agents_config_crash_cex :
    agentsPipeline (some (.ok (Yaml.map [("agents", Yaml.arr [Yaml.str "x"])]))) =
      .error .attributeError ∧
    agentsPipeline (some (.ok Yaml.null)) = .error .attributeError :=
  ⟨rfl, rfl⟩

/-- C4 (amended): only an exception raised while loading `agents.yaml` is
caught (yielding a diagnostic and the empty-agents fallback path, which
resolves to the built-in "Default Agent").  A successfully parsed document
is used unvalidated: a mapping-valued `agents` entry lists its keys, a falsy
malformed value (e.g. an empty list) silently falls through to the default
branch, while a truthy non-mapping `agents` value — or a non-mapping
document — crashes with an uncaught `AttributeError` and no diagnostic. -/
theorem agents_config_characterization :
    ∀ (xs : List Yaml) (kvs : List (String × Yaml)) (e : String),
      (agentsPipeline (some (.error e)) = .ok ["Default Agent"] ∧
        (load_agents_config (some (.error e))).2 =
          some ("Error loading agents.yaml: " ++ e)) ∧
      agentsPipeline (some (.ok (Yaml.map [("agents", Yaml.map kvs)]))) =
        (if kvs.isEmpty then .ok ["Default Agent"]
          else .ok (kvs.map (fun kv => kv.1))) ∧
      agentsPipeline (some (.ok (Yaml.map [("agents", Yaml.arr xs)]))) =
        (if xs.isEmpty then .ok ["Default Agent"] else .error .attributeError) ∧
      agentsPipeline (some (.ok Yaml.null)) = .error .attributeError := by
  intro xs kvs e
  refine ⟨⟨rfl, rfl⟩, ?_, ?_, rfl⟩
  · cases kvs with
    | nil => rfl
    | cons kv rest =>
      simp [agentsPipeline, load_agents_config, pyGetAgents, agentNames, pyTruthy]
  · cases xs with
    | nil => rfl
    | cons x rest =>
      simp [agentsPipeline, load_agents_config, pyGetAgents, agentNames, pyTruthy]

/-- C5 counterexample: a two-document batch whose first plain-text document
is not valid UTF-8 aborts the whole aggregation — the second (valid)
document contributes nothing, and no per-document error report with
continued processing takes place; the same second document alone aggregates
fine. -/
theorem decode_failure_not_isolated_cex :
    processBatch [("bad.txt", [255]), ("good.txt", [104, 105])] =
      .error "bad.txt" ∧
    processBatch [("good.txt", [104, 105])] = .ok "\n--- good.txt ---\nhi\n" :=
  ⟨rfl, rfl⟩

/-- C5 (amended): a plain-text document whose bytes are not valid UTF-8
raises an uncaught `UnicodeDecodeError` that aborts the whole batch run
(nothing is aggregated, no per-document report); a document that decodes
successfully contributes its provenance header and decoded text, with the
rest of the batch appended behind it. -/
theorem decode_failure_aborts_batch :
    (∀ (name : String) (bytes : List Nat) (rest : List (String × List Nat)),
      utf8Decode? bytes = none →
      processBatch ((name, bytes) :: rest) = .error name) ∧
    (∀ (name : String) (bytes : List Nat) (rest : List (String × List Nat))
        (cs : List Char) (acc : String),
      utf8Decode? bytes = some cs → processBatch rest = .ok acc →
      processBatch ((name, bytes) :: rest) =
        .ok ("\n--- " ++ name ++ " ---\n" ++ String.mk cs ++ "\n" ++ acc)) := by
  constructor
  · intro name bytes rest h
    simp [processBatch, h]
  · intro name bytes rest cs acc h hrest
    simp [processBatch, h, hrest]

/-- Witness for `decode_failure_aborts_batch`: byte 255 can begin no UTF-8
sequence, so the singleton batch aborts with the document's name. -/
theorem decode_failure_aborts_batch_witness :
    processBatch [("bad.txt", [255])] = .error "bad.txt" :=
  decode_failure_aborts_batch.1 "bad.txt" [255] [] (by decide)

theorem strAppend_assoc (a b c : String) : a ++ b ++ c = a ++ (b ++ c) := by
  cases a; cases b; cases c
  exact congrArg String.mk (List.append_assoc _ _ _)

/-- C6: the final prompt is the deterministic concatenation, in this fixed
order, of the agent-naming header, the labeled submission-content section
holding the aggregated submission verbatim, the labeled task section holding
the instruction string, and the closing directive requesting a detailed
analysis. -/
theorem full_prompt_structure :
    ∀ (agent summary instruction : String),
      full_prompt agent summary instruction =
        prompt_agent_header agent ++ prompt_submission_section summary ++
          prompt_task_section instruction ++ prompt_closing_directive := by
  intro agent summary instruction
  simp only [full_prompt, prompt_agent_header, prompt_submission_section,
    prompt_task_section, prompt_closing_directive, strAppend_assoc]

/-- C9 counterexample: the page written for page index 0 of a document named
"doc.pdf" is headed `"\n--- Page 1 ---\n"` — the 1-based page number appears
but the source document's name appears nowhere in the contribution, refuting
the claim that the header identifies both. -/
theorem page_header_no_docname_cex :
    pdf_contribution "doc.pdf" ["T"] [0] = some "\n--- Page 1 ---\nT\n" ∧
    ¬("doc.pdf".toList <:+: ("\n--- Page 1 ---\nT\n").toList) :=
  ⟨rfl, by decide⟩

/-- C9 (amended): each extracted page contributes a header line identifying
only its 1-based page number (not the document name — the whole PDF
contribution is independent of the document's name), followed by the page's
extracted text (possibly empty) and a newline. -/
theorem pdf_page_header_structure :
    (∀ (n₁ n₂ : String) (pages : List String) (sel : List Int),
      pdf_contribution n₁ pages sel = pdf_contribution n₂ pages sel) ∧
    (∀ (name : String) (pages : List String) (k : Int) (rest : List Int)
        (txt acc : String),
      pyIndex pages k = some txt → pdf_contribution name pages rest = some acc →
      pdf_contribution name pages (k :: rest) =
        some (("\n--- Page " ++ intStr (k + 1) ++ " ---\n") ++ txt ++ "\n" ++ acc)) := by
  constructor
  · intro n₁ n₂ pages sel
    induction sel with
    | nil => rfl
    | cons k rest IH => simp [pdf_contribution, IH]
  · intro name pages k rest txt acc hk hrest
    simp [pdf_contribution, hk, hrest, page_header]

/-- Witness for `pdf_page_header_structure`: a one-page document whose page
text is `"T"`, extracted at index 0, yields header `"\n--- Page 1 ---\n"`. -/
theorem pdf_page_header_structure_witness :
    pdf_contribution "a.pdf" ["T"] [0] =
      some (("\n--- Page " ++ intStr (0 + 1) ++ " ---\n") ++ "T" ++ "\n" ++ "") :=
  pdf_page_header_structure.2 "a.pdf" ["T"] 0 [] "T" "" (by decide) rfl

/-- C10: with an empty agents mapping, resolution falls back to the built-in
"Default Agent" whose `default_prompt` is
"Analyze the submission and extract key information.", whose temperature is
0.3 and whose `max_tokens` is 4096; with any non-empty submission text the
run gate then passes using that default prompt, so a run remains possible. -/
theorem default_agent_fallback :
    ∀ (pick : Nat) (text key : String), text ≠ "" →
      resolveAgent [] pick = ("Default Agent", default_agent_config) ∧
      default_agent_config.default_prompt =
        "Analyze the submission and extract key information." ∧
      default_agent_config.temperature = 3 / 10 ∧
      default_agent_config.max_tokens = 4096 ∧
      backendInvoked ⟨text, default_agent_config.default_prompt, true, key⟩ = true := by
  intro pick text key htext
  refine ⟨rfl, rfl, rfl, rfl, ?_⟩
  simp [backendInvoked, bne_iff_ne, htext, default_agent_config]

/-- Witness for `default_agent_fallback` at pick 0, text "x", empty key. -/
theorem default_agent_fallback_witness :
    resolveAgent [] 0 = ("Default Agent", default_agent_config) ∧
    default_agent_config.default_prompt =
      "Analyze the submission and extract key information." ∧
    default_agent_config.temperature = 3 / 10 ∧
    default_agent_config.max_tokens = 4096 ∧
    backendInvoked ⟨"x", default_agent_config.default_prompt, true, ""⟩ = true :=
  default_agent_fallback 0 "x" "" (by decide)

/-- C8 counterexample: for a backend result `"PASS"` the first download
artifact is the highlighted markup string, not the raw result text; and the
report's date field is the `"N/A"` placeholder (the program never stores a
timestamp in the session state), not a timestamp captured at run start. -/
theorem export_standalone_not_raw_cex :
    (run_artifacts "Agent" "0.3" "4096" "p" "PASS").exportStandalone ≠ "PASS" ∧
    report_date = "N/A" := by
  refine ⟨?_, rfl⟩
  intro h
  have : ("<span class=\x27highlight-positive\x27>✔ PASS</span>" : String) = "PASS" := h
  simp at this

/-- C8 (amended): after a successful run both export artifacts are pure
functions of already-held values (no further backend interaction appears in
their construction): the standalone download equals the *highlighted*
rendering of the result (the same string that is displayed), and the
composed report embeds the agent name, the constant `"N/A"` date placeholder
(no timestamp is ever captured), the rendered temperature and max-token
values, the instruction string, and the raw result text verbatim. -/
theorem run_artifacts_characterization :
    ∀ (agent tempR maxR prompt raw : String),
      (run_artifacts agent tempR maxR prompt raw).exportStandalone =
        strHighlight raw ∧
      (run_artifacts agent tempR maxR prompt raw).exportStandalone =
        (run_artifacts agent tempR maxR prompt raw).displayed ∧
      (run_artifacts agent tempR maxR prompt raw).exportReport =
        "# FDA Agent Analysis Report\n## Agent: " ++ agent ++ "\n## Date: " ++
          "N/A" ++ "\n\n### Configuration\n- Temperature: " ++ tempR ++
          "\n- Max Tokens: " ++ maxR ++ "\n\n### Prompt\n" ++ prompt ++
          "\n\n### Analysis Results\n" ++ raw ++ "\n" ∧
      report_date = "N/A" := by
  intro agent tempR maxR prompt raw
  exact ⟨rfl, rfl, rfl, rfl⟩

theorem replaceFuel_nil (p r : List Char) (fuel : Nat) :
    replaceFuel p r fuel [] = [] := by
  cases fuel <;> rfl

theorem isPrefixOf_eq_true : ∀ (a b : List Char), a.isPrefixOf b = true ↔ a <+: b := by
  intro a
  induction a with
  | nil =>
    intro b
    constructor
    · intro _; exact ⟨b, rfl⟩
    · intro _; cases b <;> rfl
  | cons c a' IH =>
    intro b
    cases b with
    | nil =>
      constructor
      · intro h; exact absurd h (by simp [List.isPrefixOf])
      · intro h
        obtain ⟨u, hu⟩ := h
        exact absurd hu (by simp)
    | cons d b' =>
      simp [List.isPrefixOf, List.cons_prefix_cons, IH]

theorem pre_append_cases : ∀ (x p t : List Char), p <+: x ++ t → p <+: x ∨ x <+: p := by
  intro x
  induction x with
  | nil => intro p t _; exact Or.inr ⟨p, rfl⟩
  | cons c x' IH =>
    intro p t h
    cases p with
    | nil => exact Or.inl ⟨c :: x', rfl⟩
    | cons d p' =>
      rw [List.cons_append, List.cons_prefix_cons] at h
      obtain ⟨rfl, h'⟩ := h
      rcases IH p' t h' with h1 | h2
      · exact Or.inl (List.cons_prefix_cons.mpr ⟨rfl, h1⟩)
      · exact Or.inr (List.cons_prefix_cons.mpr ⟨rfl, h2⟩)

theorem replaceFuel_congr (p r : List Char) :
    ∀ (m n : Nat) (s : List Char), s.length ≤ m → s.length ≤ n →
      replaceFuel p r m s = replaceFuel p r n s := by
  intro m
  induction m with
  | zero =>
    intro n s hm _
    have : s = [] := List.length_eq_zero.mp (Nat.le_zero.mp hm)
    subst this
    rw [replaceFuel_nil, replaceFuel_nil]
  | succ m IH =>
    intro n s hm hn
    cases s with
    | nil => rw [replaceFuel_nil, replaceFuel_nil]
    | cons c t =>
      cases n with
      | zero => exact absurd hn (by simp)
      | succ n =>
        show (if (!p.isEmpty) && p.isPrefixOf (c :: t) then
                r ++ replaceFuel p r m ((c :: t).drop p.length)
              else c :: replaceFuel p r m t) =
             (if (!p.isEmpty) && p.isPrefixOf (c :: t) then
                r ++ replaceFuel p r n ((c :: t).drop p.length)
              else c :: replaceFuel p r n t)
        by_cases hb : ((!p.isEmpty) && p.isPrefixOf (c :: t)) = true
        · rw [if_pos hb, if_pos hb]
          have hplen : 1 ≤ p.length := by
            rcases p with _ | ⟨q, qs⟩
            · simp at hb
            · simp
          have hlen : ((c :: t).drop p.length).length ≤ m := by
            rw [List.length_drop]
            simp only [List.length_cons] at hm ⊢
            omega
          have hlen' : ((c :: t).drop p.length).length ≤ n := by
            rw [List.length_drop]
            simp only [List.length_cons] at hn ⊢
            omega
          rw [IH _ _ hlen hlen']
        · rw [if_neg hb, if_neg hb]
          have hlen : t.length ≤ m := by
            simp only [List.length_cons] at hm; omega
          have hlen' : t.length ≤ n := by
            simp only [List.length_cons] at hn; omega
          rw [IH _ _ hlen hlen']

theorem replaceAll_cons_pos {p : List Char} (r : List Char) {c : Char} {t : List Char}
    (hp : p ≠ []) (hb : p.isPrefixOf (c :: t) = true) :
    replaceAll p r (c :: t) = r ++ replaceAll p r ((c :: t).drop p.length) := by
  have hcond : ((!p.isEmpty) && p.isPrefixOf (c :: t)) = true := by
    simp [hb, List.isEmpty_iff, hp]
  show replaceFuel p r (t.length + 1) (c :: t) = _
  rw [show replaceFuel p r (t.length + 1) (c :: t) =
      (if (!p.isEmpty) && p.isPrefixOf (c :: t) then
        r ++ replaceFuel p r t.length ((c :: t).drop p.length)
      else c :: replaceFuel p r t.length t) from rfl]
  rw [if_pos hcond]
  congr 1
  have hplen : 1 ≤ p.length := by
    rcases p with _ | ⟨q, qs⟩
    · exact absurd rfl hp
    · simp
  apply replaceFuel_congr
  · rw [List.length_drop]; simp only [List.length_cons]; omega
  · exact le_refl _

theorem replaceAll_cons_neg {p : List Char} (r : List Char) {c : Char} {t : List Char}
    (hb : p.isPrefixOf (c :: t) = false) :
    replaceAll p r (c :: t) = c :: replaceAll p r t := by
  have hcond : ((!p.isEmpty) && p.isPrefixOf (c :: t)) = false := by
    simp [hb]
  show replaceFuel p r (t.length + 1) (c :: t) = _
  rw [show replaceFuel p r (t.length + 1) (c :: t) =
      (if (!p.isEmpty) && p.isPrefixOf (c :: t) then
        r ++ replaceFuel p r t.length ((c :: t).drop p.length)
      else c :: replaceFuel p r t.length t) from rfl]
  rw [if_neg (by simp [hcond])]
  rfl

/-- Boolean separation test: no occurrence of `b` starts inside `a` — for
every suffix of `a`, `b` is neither a prefix of it nor an extension of it. -/
def sepB (a b : List Char) : Bool :=
  (List.range a.length).all
    (fun i => !((a.drop i).isPrefixOf b) && !(b.isPrefixOf (a.drop i)))

theorem sepB_spec {a b : List Char} (h : sepB a b = true) :
    ∀ i, i < a.length → ¬(a.drop i <+: b) ∧ ¬(b <+: a.drop i) := by
  intro i hi
  have hall := List.all_eq_true.mp h (i) (List.mem_range.mpr hi)
  rw [Bool.and_eq_true, Bool.not_eq_true', Bool.not_eq_true'] at hall
  constructor
  · intro hpre
    exact absurd ((isPrefixOf_eq_true _ _).mpr hpre) (by simp [hall.1])
  · intro hpre
    exact absurd ((isPrefixOf_eq_true _ _).mpr hpre) (by simp [hall.2])

/-- Scanning for `p` walks straight through a block `a` in which no
occurrence of `p` starts. -/
theorem replaceAll_skip (p r : List Char) :
    ∀ (a t : List Char),
      (∀ i, i < a.length → ¬(a.drop i <+: p) ∧ ¬(p <+: a.drop i)) →
      replaceAll p r (a ++ t) = a ++ replaceAll p r t := by
  intro a
  induction a with
  | nil => intro t _; rfl
  | cons c a' IH =>
    intro t hsep
    have h0 := hsep 0 (by simp)
    rw [List.drop_zero] at h0
    have hnp : p.isPrefixOf (c :: (a' ++ t)) = false := by
      rw [Bool.eq_false_iff]
      intro hb
      have hpre : p <+: (c :: a') ++ t := (isPrefixOf_eq_true _ _).mp hb
      rcases pre_append_cases (c :: a') p t hpre with h1 | h2
      · exact h0.2 h1
      · exact h0.1 h2
    show replaceAll p r (c :: (a' ++ t)) = c :: (a' ++ replaceAll p r t)
    rw [replaceAll_cons_neg r hnp]
    congr 1
    apply IH
    intro i hi
    have := hsep (i + 1) (by simpa using Nat.succ_lt_succ hi)
    simpa [List.drop_succ_cons] using this

/-- Wrapper for `replaceAll_skip` with the Boolean separation test. -/
theorem replaceAll_skip_sep {p : List Char} (r : List Char) (_hp : p ≠ [])
    (a : List Char) (hs : sepB a p = true) (t : List Char) :
    replaceAll p r (a ++ t) = a ++ replaceAll p r t :=
  replaceAll_skip p r a t (sepB_spec hs)

/-- Scanning for `p` at an occurrence of `p` replaces it and moves on. -/
theorem replaceAll_append_self {p : List Char} (r : List Char) (hp : p ≠ [])
    (u : List Char) :
    replaceAll p r (p ++ u) = r ++ replaceAll p r u := by
  rcases hq : p with _ | ⟨q, qs⟩
  · exact absurd hq hp
  rw [← hq]
  have hb : p.isPrefixOf (p ++ u) = true :=
    (isPrefixOf_eq_true _ _).mpr ⟨u, rfl⟩
  have hne : p ++ u ≠ [] := by
    rw [hq]; simp
  rcases hsu : p ++ u with _ | ⟨c, t⟩
  · exact absurd hsu hne
  rw [← hsu]
  calc replaceAll p r (p ++ u)
      = r ++ replaceAll p r ((p ++ u).drop p.length) := by
        rw [hsu] at hb ⊢
        exact replaceAll_cons_pos r hp hb
    _ = r ++ replaceAll p r u := by rw [List.drop_left]

/-- A list with no occurrence of the replacement's first character that is a
prefix of a replaced string was already a prefix of the original. -/
theorem pre_of_replaceAll {p r : List Char} (hp : p ≠ []) (hr : r ≠ []) :
    ∀ (t x : List Char), (∀ hd rt, r = hd :: rt → hd ∉ x) →
      x <+: replaceAll p r t → x <+: t := by
  intro t
  induction t with
  | nil =>
    intro x _ hx
    rw [show replaceAll p r [] = [] from rfl] at hx
    obtain ⟨u, hu⟩ := hx
    rcases x with _ | ⟨c, x'⟩
    · exact ⟨[], rfl⟩
    · exact absurd hu (by simp)
  | cons c t' IH =>
    intro x hhd hx
    by_cases hb : p.isPrefixOf (c :: t') = true
    · rw [replaceAll_cons_pos r hp hb] at hx
      rcases x with _ | ⟨d, x'⟩
      · exact ⟨c :: t', rfl⟩
      · exfalso
        rcases hrr : r with _ | ⟨hd, rt⟩
        · exact hr hrr
        rw [hrr] at hx
        rw [List.cons_append, List.cons_prefix_cons] at hx
        exact hhd hd rt hrr (hx.1 ▸ List.mem_cons_self d x')
    · rw [replaceAll_cons_neg r (Bool.eq_false_iff.mpr hb)] at hx
      rcases x with _ | ⟨d, x'⟩
      · exact ⟨c :: t', rfl⟩
      · rw [List.cons_prefix_cons] at hx
        obtain ⟨rfl, hx'⟩ := hx
        have hx't : x' <+: t' :=
          IH x' (fun hd rt hrr hmem => hhd hd rt hrr (List.mem_cons_of_mem d hmem)) hx'
        exact List.cons_prefix_cons.mpr ⟨rfl, hx't⟩

/-- Two replacements commute when neither pattern can overlap the other (or
itself through the other), neither replacement text contains an occurrence
of the other pattern, and neither replacement's first character occurs in
the other pattern. -/
theorem replaceAll_comm_bound (p₁ r₁ p₂ r₂ : List Char)
    (hp₁ : p₁ ≠ []) (hp₂ : p₂ ≠ []) (hr₁ : r₁ ≠ []) (hr₂ : r₂ ≠ [])
    (h12 : sepB p₁ p₂ = true) (h21 : sepB p₂ p₁ = true)
    (hr1p2 : sepB r₁ p₂ = true) (hr2p1 : sepB r₂ p₁ = true)
    (hh2 : r₂.headD 'a' ∉ p₁) (hh1 : r₁.headD 'a' ∉ p₂) :
    ∀ (n : Nat) (s : List Char), s.length ≤ n →
      replaceAll p₁ r₁ (replaceAll p₂ r₂ s) =
        replaceAll p₂ r₂ (replaceAll p₁ r₁ s) := by
  intro n
  induction n with
  | zero =>
    intro s hs
    have : s = [] := List.length_eq_zero.mp (Nat.le_zero.mp hs)
    subst this
    rfl
  | succ n IH =>
    intro s hs
    cases s with
    | nil => rfl
    | cons c t =>
      by_cases hb1 : p₁.isPrefixOf (c :: t) = true
      · obtain ⟨u, hu⟩ := (isPrefixOf_eq_true _ _).mp hb1
        rw [← hu]
        have hlen : u.length ≤ n := by
          have hlu := congrArg List.length hu
          simp only [List.length_append, List.length_cons] at hlu
          have hpos : 0 < p₁.length := List.length_pos.mpr hp₁
          simp only [List.length_cons] at hs
          omega
        calc replaceAll p₁ r₁ (replaceAll p₂ r₂ (p₁ ++ u))
            = replaceAll p₁ r₁ (p₁ ++ replaceAll p₂ r₂ u) := by
              rw [replaceAll_skip_sep r₂ hp₂ p₁ h12 u]
          _ = r₁ ++ replaceAll p₁ r₁ (replaceAll p₂ r₂ u) :=
              replaceAll_append_self r₁ hp₁ _
          _ = r₁ ++ replaceAll p₂ r₂ (replaceAll p₁ r₁ u) := by rw [IH u hlen]
          _ = replaceAll p₂ r₂ (r₁ ++ replaceAll p₁ r₁ u) :=
              (replaceAll_skip_sep r₂ hp₂ r₁ hr1p2 _).symm
          _ = replaceAll p₂ r₂ (replaceAll p₁ r₁ (p₁ ++ u)) := by
              rw [replaceAll_append_self r₁ hp₁ u]
      · by_cases hb2 : p₂.isPrefixOf (c :: t) = true
        · obtain ⟨u, hu⟩ := (isPrefixOf_eq_true _ _).mp hb2
          rw [← hu]
          have hlen : u.length ≤ n := by
            have hlu := congrArg List.length hu
            simp only [List.length_append, List.length_cons] at hlu
            have hpos : 0 < p₂.length := List.length_pos.mpr hp₂
            simp only [List.length_cons] at hs
            omega
          calc replaceAll p₁ r₁ (replaceAll p₂ r₂ (p₂ ++ u))
              = replaceAll p₁ r₁ (r₂ ++ replaceAll p₂ r₂ u) := by
                rw [replaceAll_append_self r₂ hp₂ u]
            _ = r₂ ++ replaceAll p₁ r₁ (replaceAll p₂ r₂ u) :=
                replaceAll_skip_sep r₁ hp₁ r₂ hr2p1 _
            _ = r₂ ++ replaceAll p₂ r₂ (replaceAll p₁ r₁ u) := by rw [IH u hlen]
            _ = replaceAll p₂ r₂ (p₂ ++ replaceAll p₁ r₁ u) :=
                (replaceAll_append_self r₂ hp₂ _).symm
            _ = replaceAll p₂ r₂ (replaceAll p₁ r₁ (p₂ ++ u)) := by
                rw [replaceAll_skip_sep r₁ hp₁ p₂ h21 u]
        · have hb1' : p₁.isPrefixOf (c :: t) = false := Bool.eq_false_iff.mpr hb1
          have hb2' : p₂.isPrefixOf (c :: t) = false := Bool.eq_false_iff.mpr hb2
          have hlen : t.length ≤ n := by
            simp only [List.length_cons] at hs; omega
          have h1n : p₁.isPrefixOf (c :: replaceAll p₂ r₂ t) = false := by
            rw [Bool.eq_false_iff]
            intro hb
            rcases hq : p₁ with _ | ⟨d, p₁'⟩
            · exact hp₁ hq
            rw [hq] at hb
            have hpre := (isPrefixOf_eq_true _ _).mp hb
            rw [List.cons_prefix_cons] at hpre
            obtain ⟨hdc, hx⟩ := hpre
            rw [hdc] at hq
            have hx' : p₁' <+: t :=
              pre_of_replaceAll hp₂ hr₂ t p₁'
                (fun hd rt hrr hmem => by
                  apply hh2
                  rw [hrr, hq]
                  exact List.mem_cons_of_mem c hmem) hx
            have : p₁.isPrefixOf (c :: t) = true := by
              rw [hq]
              exact (isPrefixOf_eq_true _ _).mpr (List.cons_prefix_cons.mpr ⟨rfl, hx'⟩)
            exact hb1 this
          have h2n : p₂.isPrefixOf (c :: replaceAll p₁ r₁ t) = false := by
            rw [Bool.eq_false_iff]
            intro hb
            rcases hq : p₂ with _ | ⟨d, p₂'⟩
            · exact hp₂ hq
            rw [hq] at hb
            have hpre := (isPrefixOf_eq_true _ _).mp hb
            rw [List.cons_prefix_cons] at hpre
            obtain ⟨hdc, hx⟩ := hpre
            rw [hdc] at hq
            have hx' : p₂' <+: t :=
              pre_of_replaceAll hp₁ hr₁ t p₂'
                (fun hd rt hrr hmem => by
                  apply hh1
                  rw [hrr, hq]
                  exact List.mem_cons_of_mem c hmem) hx
            have : p₂.isPrefixOf (c :: t) = true := by
              rw [hq]
              exact (isPrefixOf_eq_true _ _).mpr (List.cons_prefix_cons.mpr ⟨rfl, hx'⟩)
            exact hb2 this
          rw [replaceAll_cons_neg r₂ hb2', replaceAll_cons_neg r₁ h1n,
              replaceAll_cons_neg r₁ hb1', replaceAll_cons_neg r₂ h2n]
          rw [IH t hlen]

/-- Unbounded form of `replaceAll_comm_bound`. -/
theorem replaceAll_comm (p₁ r₁ p₂ r₂ : List Char)
    (hp₁ : p₁ ≠ []) (hp₂ : p₂ ≠ []) (hr₁ : r₁ ≠ []) (hr₂ : r₂ ≠ [])
    (h12 : sepB p₁ p₂ = true) (h21 : sepB p₂ p₁ = true)
    (hr1p2 : sepB r₁ p₂ = true) (hr2p1 : sepB r₂ p₁ = true)
    (hh2 : r₂.headD 'a' ∉ p₁) (hh1 : r₁.headD 'a' ∉ p₂) (s : List Char) :
    replaceAll p₁ r₁ (replaceAll p₂ r₂ s) =
      replaceAll p₂ r₂ (replaceAll p₁ r₁ s) :=
  replaceAll_comm_bound p₁ r₁ p₂ r₂ hp₁ hp₂ hr₁ hr₂ h12 h21 hr1p2 hr2p1
    hh2 hh1 s.length s (le_refl _)

theorem not_pre_cons_replace {p q r : List Char} (hp : p ≠ []) (hq : q ≠ [])
    (hr : r ≠ []) (hhd : r.headD 'a' ∉ p) {c : Char} {t : List Char}
    (hnp : p.isPrefixOf (c :: t) = false) :
    p.isPrefixOf (c :: replaceAll q r t) = false := by
  rw [Bool.eq_false_iff]
  intro hb
  rcases hpp : p with _ | ⟨d, p'⟩
  · exact hp hpp
  rw [hpp] at hb
  have hpre := (isPrefixOf_eq_true _ _).mp hb
  rw [List.cons_prefix_cons] at hpre
  obtain ⟨hdc, hx⟩ := hpre
  rw [hdc] at hpp
  have hx' : p' <+: t :=
    pre_of_replaceAll hq hr t p'
      (fun hd rt hrr hmem => by
        apply hhd
        rw [hrr, hpp]
        exact List.mem_cons_of_mem c hmem) hx
  have hyes : p.isPrefixOf (c :: t) = true := by
    rw [hpp]
    exact (isPrefixOf_eq_true _ _).mpr (List.cons_prefix_cons.mpr ⟨rfl, hx'⟩)
  exact (Bool.eq_false_iff.mp hnp) hyes

theorem scanFuel_nil (fuel : Nat) : scanFuel fuel [] = [] := by
  cases fuel <;> rfl

theorem scanFuel_congr :
    ∀ (m n : Nat) (s : List Char), s.length ≤ m → s.length ≤ n →
      scanFuel m s = scanFuel n s := by
  intro m
  induction m with
  | zero =>
    intro n s hm _
    have : s = [] := List.length_eq_zero.mp (Nat.le_zero.mp hm)
    subst this
    rw [scanFuel_nil, scanFuel_nil]
  | succ m IH =>
    intro n s hm hn
    cases s with
    | nil => rw [scanFuel_nil, scanFuel_nil]
    | cons c t =>
      cases n with
      | zero => exact absurd hn (by simp)
      | succ n =>
        have e1 : 1 ≤ pYES.length := by decide
        have e2 : 1 ≤ pNO.length := by decide
        have e3 : 1 ≤ pPASS.length := by decide
        have e4 : 1 ≤ pFAIL.length := by decide
        simp only [List.length_cons] at hm hn
        show (if pYES.isPrefixOf (c :: t) then
                rYES ++ scanFuel m ((c :: t).drop pYES.length)
              else if pNO.isPrefixOf (c :: t) then
                rNO ++ scanFuel m ((c :: t).drop pNO.length)
              else if pPASS.isPrefixOf (c :: t) then
                rPASS ++ scanFuel m ((c :: t).drop pPASS.length)
              else if pFAIL.isPrefixOf (c :: t) then
                rFAIL ++ scanFuel m ((c :: t).drop pFAIL.length)
              else c :: scanFuel m t) =
             (if pYES.isPrefixOf (c :: t) then
                rYES ++ scanFuel n ((c :: t).drop pYES.length)
              else if pNO.isPrefixOf (c :: t) then
                rNO ++ scanFuel n ((c :: t).drop pNO.length)
              else if pPASS.isPrefixOf (c :: t) then
                rPASS ++ scanFuel n ((c :: t).drop pPASS.length)
              else if pFAIL.isPrefixOf (c :: t) then
                rFAIL ++ scanFuel n ((c :: t).drop pFAIL.length)
              else c :: scanFuel n t)
        by_cases h1 : pYES.isPrefixOf (c :: t) = true
        · simp only [h1, if_true]
          congr 1
          exact IH _ _
            (by rw [List.length_drop]; simp only [List.length_cons]; omega)
            (by rw [List.length_drop]; simp only [List.length_cons]; omega)
        · rw [Bool.not_eq_true] at h1
          simp only [h1, Bool.false_eq_true, if_false]
          by_cases h2 : pNO.isPrefixOf (c :: t) = true
          · simp only [h2, if_true]
            congr 1
            exact IH _ _
              (by rw [List.length_drop]; simp only [List.length_cons]; omega)
              (by rw [List.length_drop]; simp only [List.length_cons]; omega)
          · rw [Bool.not_eq_true] at h2
            simp only [h2, Bool.false_eq_true, if_false]
            by_cases h3 : pPASS.isPrefixOf (c :: t) = true
            · simp only [h3, if_true]
              congr 1
              exact IH _ _
                (by rw [List.length_drop]; simp only [List.length_cons]; omega)
                (by rw [List.length_drop]; simp only [List.length_cons]; omega)
            · rw [Bool.not_eq_true] at h3
              simp only [h3, Bool.false_eq_true, if_false]
              by_cases h4 : pFAIL.isPrefixOf (c :: t) = true
              · simp only [h4, if_true]
                congr 1
                exact IH _ _
                  (by rw [List.length_drop]; simp only [List.length_cons]; omega)
                  (by rw [List.length_drop]; simp only [List.length_cons]; omega)
              · rw [Bool.not_eq_true] at h4
                simp only [h4, Bool.false_eq_true, if_false]
                congr 1
                exact IH _ _ (by omega) (by omega)

theorem highlightScan_unfold (c : Char) (t : List Char) :
    highlightScan (c :: t) =
      (if pYES.isPrefixOf (c :: t) then
        rYES ++ highlightScan ((c :: t).drop pYES.length)
      else if pNO.isPrefixOf (c :: t) then
        rNO ++ highlightScan ((c :: t).drop pNO.length)
      else if pPASS.isPrefixOf (c :: t) then
        rPASS ++ highlightScan ((c :: t).drop pPASS.length)
      else if pFAIL.isPrefixOf (c :: t) then
        rFAIL ++ highlightScan ((c :: t).drop pFAIL.length)
      else c :: highlightScan t) := by
  have e1 : 1 ≤ pYES.length := by decide
  have e2 : 1 ≤ pNO.length := by decide
  have e3 : 1 ≤ pPASS.length := by decide
  have e4 : 1 ≤ pFAIL.length := by decide
  show (if pYES.isPrefixOf (c :: t) then
          rYES ++ scanFuel t.length ((c :: t).drop pYES.length)
        else if pNO.isPrefixOf (c :: t) then
          rNO ++ scanFuel t.length ((c :: t).drop pNO.length)
        else if pPASS.isPrefixOf (c :: t) then
          rPASS ++ scanFuel t.length ((c :: t).drop pPASS.length)
        else if pFAIL.isPrefixOf (c :: t) then
          rFAIL ++ scanFuel t.length ((c :: t).drop pFAIL.length)
        else c :: scanFuel t.length t) = _
  by_cases h1 : pYES.isPrefixOf (c :: t) = true
  · simp only [h1, if_true]
    congr 1
    exact scanFuel_congr _ _ _
      (by rw [List.length_drop]; simp only [List.length_cons]; omega) (le_refl _)
  · rw [Bool.not_eq_true] at h1
    simp only [h1, Bool.false_eq_true, if_false]
    by_cases h2 : pNO.isPrefixOf (c :: t) = true
    · simp only [h2, if_true]
      congr 1
      exact scanFuel_congr _ _ _
        (by rw [List.length_drop]; simp only [List.length_cons]; omega) (le_refl _)
    · rw [Bool.not_eq_true] at h2
      simp only [h2, Bool.false_eq_true, if_false]
      by_cases h3 : pPASS.isPrefixOf (c :: t) = true
      · simp only [h3, if_true]
        congr 1
        exact scanFuel_congr _ _ _
          (by rw [List.length_drop]; simp only [List.length_cons]; omega) (le_refl _)
      · rw [Bool.not_eq_true] at h3
        simp only [h3, Bool.false_eq_true, if_false]
        by_cases h4 : pFAIL.isPrefixOf (c :: t) = true
        · simp only [h4, if_true]
          congr 1
          exact scanFuel_congr _ _ _
            (by rw [List.length_drop]; simp only [List.length_cons]; omega) (le_refl _)
        · rw [Bool.not_eq_true] at h4
          simp only [h4, Bool.false_eq_true, if_false]
          rfl

theorem pythonHighlight_spec (s : List Char) :
    pythonHighlight s =
      replaceAll pFAIL rFAIL (replaceAll pPASS rPASS
        (replaceAll pNO rNO (replaceAll pYES rYES s))) := rfl

theorem pythonHighlight_eq_scan_bound :
    ∀ (n : Nat) (s : List Char), s.length ≤ n →
      pythonHighlight s = highlightScan s := by
  intro n
  induction n with
  | zero =>
    intro s hs
    have : s = [] := List.length_eq_zero.mp (Nat.le_zero.mp hs)
    subst this
    rfl
  | succ n IH =>
    intro s hs
    cases s with
    | nil => rfl
    | cons c t =>
      rw [pythonHighlight_spec, highlightScan_unfold]
      by_cases h1 : pYES.isPrefixOf (c :: t) = true
      · obtain ⟨u, hu⟩ := (isPrefixOf_eq_true _ _).mp h1
        simp only [h1, if_true]
        rw [← hu, List.drop_left]
        rw [replaceAll_append_self rYES (by decide) u]
        rw [replaceAll_skip_sep rNO (by decide) rYES (by decide) _]
        rw [replaceAll_skip_sep rPASS (by decide) rYES (by decide) _]
        rw [replaceAll_skip_sep rFAIL (by decide) rYES (by decide) _]
        congr 1
        rw [← pythonHighlight_spec]
        refine IH u ?_
        have hlu := congrArg List.length hu
        simp only [List.length_append, List.length_cons] at hlu
        have h5 : 1 ≤ pYES.length := by decide
        simp only [List.length_cons] at hs
        omega
      · rw [Bool.not_eq_true] at h1
        by_cases h2 : pNO.isPrefixOf (c :: t) = true
        · obtain ⟨u, hu⟩ := (isPrefixOf_eq_true _ _).mp h2
          simp only [h1, Bool.false_eq_true, if_false, h2, if_true]
          rw [← hu, List.drop_left]
          rw [replaceAll_skip_sep rYES (by decide) pNO (by decide) u]
          rw [replaceAll_append_self rNO (by decide) _]
          rw [replaceAll_skip_sep rPASS (by decide) rNO (by decide) _]
          rw [replaceAll_skip_sep rFAIL (by decide) rNO (by decide) _]
          congr 1
          rw [← pythonHighlight_spec]
          refine IH _ ?_
          have hlu := congrArg List.length hu
          simp only [List.length_append, List.length_cons] at hlu
          have h5 : 1 ≤ pNO.length := by decide
          simp only [List.length_cons] at hs
          omega
        · rw [Bool.not_eq_true] at h2
          by_cases h3 : pPASS.isPrefixOf (c :: t) = true
          · obtain ⟨u, hu⟩ := (isPrefixOf_eq_true _ _).mp h3
            simp only [h1, h2, Bool.false_eq_true, if_false, h3, if_true]
            rw [← hu, List.drop_left]
            rw [replaceAll_skip_sep rYES (by decide) pPASS (by decide) u]
            rw [replaceAll_skip_sep rNO (by decide) pPASS (by decide) _]
            rw [replaceAll_append_self rPASS (by decide) _]
            rw [replaceAll_skip_sep rFAIL (by decide) rPASS (by decide) _]
            congr 1
            rw [← pythonHighlight_spec]
            refine IH _ ?_
            have hlu := congrArg List.length hu
            simp only [List.length_append, List.length_cons] at hlu
            have h5 : 1 ≤ pPASS.length := by decide
            simp only [List.length_cons] at hs
            omega
          · rw [Bool.not_eq_true] at h3
            by_cases h4 : pFAIL.isPrefixOf (c :: t) = true
            · obtain ⟨u, hu⟩ := (isPrefixOf_eq_true _ _).mp h4
              simp only [h1, h2, h3, Bool.false_eq_true, if_false, h4, if_true]
              rw [← hu, List.drop_left]
              rw [replaceAll_skip_sep rYES (by decide) pFAIL (by decide) u]
              rw [replaceAll_skip_sep rNO (by decide) pFAIL (by decide) _]
              rw [replaceAll_skip_sep rPASS (by decide) pFAIL (by decide) _]
              rw [replaceAll_append_self rFAIL (by decide) _]
              congr 1
              rw [← pythonHighlight_spec]
              refine IH _ ?_
              have hlu := congrArg List.length hu
              simp only [List.length_append, List.length_cons] at hlu
              have h5 : 1 ≤ pFAIL.length := by decide
              simp only [List.length_cons] at hs
              omega
            · rw [Bool.not_eq_true] at h4
              simp only [h1, h2, h3, h4, Bool.false_eq_true, if_false]
              rw [replaceAll_cons_neg rYES h1]
              have h2a : pNO.isPrefixOf (c :: replaceAll pYES rYES t) = false :=
                not_pre_cons_replace (by decide) (by decide) (by decide)
                  (by decide) h2
              rw [replaceAll_cons_neg rNO h2a]
              have h3a : pPASS.isPrefixOf (c :: replaceAll pYES rYES t) = false :=
                not_pre_cons_replace (by decide) (by decide) (by decide)
                  (by decide) h3
              have h3b : pPASS.isPrefixOf
                  (c :: replaceAll pNO rNO (replaceAll pYES rYES t)) = false :=
                not_pre_cons_replace (by decide) (by decide) (by decide)
                  (by decide) h3a
              rw [replaceAll_cons_neg rPASS h3b]
              have h4a : pFAIL.isPrefixOf (c :: replaceAll pYES rYES t) = false :=
                not_pre_cons_replace (by decide) (by decide) (by decide)
                  (by decide) h4
              have h4b : pFAIL.isPrefixOf
                  (c :: replaceAll pNO rNO (replaceAll pYES rYES t)) = false :=
                not_pre_cons_replace (by decide) (by decide) (by decide)
                  (by decide) h4a
              have h4c : pFAIL.isPrefixOf
                  (c :: replaceAll pPASS rPASS
                    (replaceAll pNO rNO (replaceAll pYES rYES t))) = false :=
                not_pre_cons_replace (by decide) (by decide) (by decide)
                  (by decide) h4b
              rw [replaceAll_cons_neg rFAIL h4c]
              congr 1
              rw [← pythonHighlight_spec]
              refine IH t ?_
              simp only [List.length_cons] at hs
              omega

/-- The sequential four-replacement chain equals the single canonical scan
that leaves every character outside a token occurrence unchanged. -/
theorem pythonHighlight_eq_scan (s : List Char) :
    pythonHighlight s = highlightScan s :=
  pythonHighlight_eq_scan_bound s.length s (le_refl _)

theorem applyRepl_rightComm :
    ∀ x ∈ hlPairs, ∀ y ∈ hlPairs, ∀ s : List Char,
      applyRepl (applyRepl s x) y = applyRepl (applyRepl s y) x := by
  intro x hx y hy s
  simp only [hlPairs, List.mem_cons, List.not_mem_nil, or_false] at hx hy
  rcases hx with rfl | rfl | rfl | rfl <;> rcases hy with rfl | rfl | rfl | rfl <;>
    first
      | rfl
      | exact replaceAll_comm _ _ _ _ (by decide) (by decide) (by decide)
          (by decide) (by decide) (by decide) (by decide) (by decide)
          (by decide) (by decide) s

/-- C7: the highlighting transform is order independent — folding the four
literal replacement pairs over the input in any permutation of the source's
order produces the same string — and it equals the canonical one-pass scan
`highlightScan`, whose definition replaces exactly the occurrences of
`[YES]`, `[NO]`, `PASS`, `FAIL` and emits every other input character
unchanged.  Purity holds by construction: `pythonHighlight` is a function of
the input string alone. -/
theorem highlight_order_independent :
    ∀ (s : List Char) (l : List (List Char × List Char)), l.Perm hlPairs →
      l.foldl applyRepl s = pythonHighlight s ∧
        pythonHighlight s = highlightScan s := by
  intro s l hperm
  constructor
  · exact List.Perm.foldl_eq' hperm
      (fun x hx y hy z =>
        applyRepl_rightComm x (hperm.mem_iff.mp hx) y (hperm.mem_iff.mp hy) z) s
  · exact pythonHighlight_eq_scan s

/-- Witness for `highlight_order_independent`: the reversed application
order on the spec's example input gives the same output as the source's
order, and that output marks up both `[YES]` and `PASS` while leaving the
rest of the example unchanged. -/
theorem highlight_order_independent_witness :
    ([(pFAIL, rFAIL), (pPASS, rPASS), (pNO, rNO), (pYES, rYES)].foldl applyRepl
        "Result: [YES], score PASS".toList =
      pythonHighlight "Result: [YES], score PASS".toList ∧
      pythonHighlight "Result: [YES], score PASS".toList =
        highlightScan "Result: [YES], score PASS".toList) ∧
    pythonHighlight "Result: [YES], score PASS".toList =
      ("Result: <span class=\x27highlight-positive\x27>✔ YES</span>, score <span class=\x27highlight-positive\x27>✔ PASS</span>").toList :=
  ⟨highlight_order_independent "Result: [YES], score PASS".toList
      [(pFAIL, rFAIL), (pPASS, rPASS), (pNO, rNO), (pYES, rYES)] (by decide),
    by decide⟩
